import Mathlib

/-!
Shallow embedding of the m6502rs 6502 emulator core (`src/memory.rs` and
`src/cpu.rs`) and proofs about it.

Machine integers are modelled as `Nat` with explicit wrapping: `u16`
arithmetic is reduced modulo 65536 exactly where the source uses
`wrapping_add` / `wrapping_sub`, `u8` values are kept below 256 by the
store operations, and `u32::saturating_sub` on a cycle budget is `Nat`
truncated subtraction.  The `println!` in the unhandled-opcode arm of
`CPU::execute` is modelled as an output list carrying the offending
opcode byte, and the list of memory addresses the loop touches is
collected alongside so that bounds statements can be made about it.
-/

namespace M6502

/-- 64KB address space (`MAX_MEM` in `memory.rs`). -/
def MAX_MEM : Nat := 1024 * 64

/-- The 6502 memory: a flat byte store, modelled as a function from
addresses to stored values; the Rust `Mem` owns a `[u8; MAX_MEM]`, so
every value actually stored is below 256 (`Mem.wf`). -/
abbrev Mem := Nat → Nat

/-- Well-formedness guaranteed in Rust by the `u8` element type: every
stored value is a byte. -/
def Mem.wf (m : Mem) : Prop := ∀ a, m a < 256

/-- `Mem::new`: all bytes zero. -/
def Mem.new : Mem := fun _ => 0

/-- A single byte store (the `IndexMut` write `mem[address] = value`). -/
def Mem.write (m : Mem) (address value : Nat) : Mem :=
  fun a => if a = address then value else m a

/-- `Mem::initialize`: zero-fill the whole array. -/
def Mem.initialize (_m : Mem) : Mem := fun _ => 0

/-- `Mem::write_word`: store `value` (a `u16` in the source) in
little-endian order, low byte at `address`, high byte at `address + 1`,
and decrement the cycle budget by 2 with `saturating_sub` (truncated
subtraction on `Nat`).  `address` is a `u32` in the source, so the
`address + 1` is plain addition, not 16-bit wrapping. -/
def Mem.write_word (m : Mem) (value address cycles : Nat) : Mem × Nat :=
  (Mem.write (Mem.write m address (value &&& 0xFF)) (address + 1) ((value >>> 8) % 256),
   cycles - 2)

/-- The CPU register and flag state (`struct CPU` in `cpu.rs`).
`pc` and `sp` are `u16` in the source, `a`/`x`/`y` and the seven flag
fields are `u8`. -/
structure CPU where
  pc : Nat
  sp : Nat
  a : Nat
  x : Nat
  y : Nat
  c : Nat
  z : Nat
  i : Nat
  d : Nat
  b : Nat
  v : Nat
  n : Nat
deriving DecidableEq, Repr

/-- Opcode `INS_LDA_IM` (LDA immediate). -/
def CPU.INS_LDA_IM : Nat := 0xA9

/-- Opcode `INS_LDA_ZP` (LDA zero page). -/
def CPU.INS_LDA_ZP : Nat := 0xA5

/-- Opcode `INS_LDA_ZPX` (LDA zero page,X) — declared in the source but
given no arm in the `execute` dispatch. -/
def CPU.INS_LDA_ZPX : Nat := 0xB5

/-- Opcode `INS_JSR` (jump to subroutine). -/
def CPU.INS_JSR : Nat := 0x20

/-- `CPU::new`: every register and flag cleared. -/
def CPU.new : CPU :=
  { pc := 0, sp := 0, a := 0, x := 0, y := 0,
    c := 0, z := 0, i := 0, d := 0, b := 0, v := 0, n := 0 }

/-- `CPU::reset`: pc to the reset vector, sp to 0x0100, registers and
flags cleared except the interrupt-disable flag, and the memory
re-initialized. -/
def CPU.reset (_cpu : CPU) (mem : Mem) : CPU × Mem :=
  ({ pc := 0xFFFC, sp := 0x0100, a := 0, x := 0, y := 0,
     c := 0, z := 0, i := 1, d := 0, b := 0, v := 0, n := 0 },
   Mem.initialize mem)

/-- `CPU::set_pc`: the argument is a `u16`, hence the reduction mod 65536. -/
def CPU.set_pc (cpu : CPU) (value : Nat) : CPU := { cpu with pc := value % 65536 }

/-- `CPU::set_a`: the argument is a `u8`, hence the reduction mod 256. -/
def CPU.set_a (cpu : CPU) (value : Nat) : CPU := { cpu with a := value % 256 }

/-- `CPU::fetch_byte`: read the byte at `pc`, advance `pc` by 1 with
16-bit wrapping, charge one cycle by saturating subtraction.  Returns
the byte together with the updated CPU and budget. -/
def CPU.fetch_byte (cpu : CPU) (cycles : Nat) (mem : Mem) : Nat × CPU × Nat :=
  (mem cpu.pc, { cpu with pc := (cpu.pc + 1) % 65536 }, cycles - 1)

/-- `CPU::fetch_word`: two sequential byte reads, low byte at `pc`
first, then the high byte at the incremented (wrapping) `pc`; the
result is `(high <<< 8) ||| low`, `pc` has advanced by 2 and the budget
has been charged 2 cycles. -/
def CPU.fetch_word (cpu : CPU) (cycles : Nat) (mem : Mem) : Nat × CPU × Nat :=
  let low := mem cpu.pc
  let pc1 := (cpu.pc + 1) % 65536
  let high := mem pc1
  ((high <<< 8) ||| low, { cpu with pc := (pc1 + 1) % 65536 }, cycles - 2)

/-- `CPU::read_byte`: read the byte at an 8-bit address without moving
`pc`, charging one cycle.  The CPU state is untouched, so only the data
and the new budget are returned. -/
def CPU.read_byte (cycles : Nat) (address : Nat) (mem : Mem) : Nat × Nat :=
  (mem address, cycles - 1)

/-- `CPU::lda_set_status`: recompute the zero and negative flags from
the accumulator. -/
def CPU.lda_set_status (cpu : CPU) : CPU :=
  { cpu with
    z := if cpu.a = 0 then 1 else 0,
    n := if cpu.a &&& 0b10000000 > 0 then 1 else 0 }

/-- Outcome of one iteration of the `execute` loop body: either the
loop continues (`cont`) or the `break` of the unhandled-opcode arm is
taken (`halt`, carrying the opcode that was printed).  Both carry the
list of memory addresses accessed during the iteration. -/
inductive StepOut where
  | cont (cpu : CPU) (mem : Mem) (cycles : Nat) (addrs : List Nat)
  | halt (cpu : CPU) (mem : Mem) (cycles : Nat) (ins : Nat) (addrs : List Nat)

/-- CPU state after the iteration. -/
def StepOut.cpu : StepOut → CPU
  | .cont c _ _ _ => c
  | .halt c _ _ _ _ => c

/-- Memory after the iteration. -/
def StepOut.mem : StepOut → Mem
  | .cont _ m _ _ => m
  | .halt _ m _ _ _ => m

/-- Remaining budget after the iteration. -/
def StepOut.cycles : StepOut → Nat
  | .cont _ _ y _ => y
  | .halt _ _ y _ _ => y

/-- Addresses read or written during the iteration. -/
def StepOut.addrs : StepOut → List Nat
  | .cont _ _ _ l => l
  | .halt _ _ _ _ l => l

/-- Whether the iteration took the unhandled-opcode `break`. -/
def StepOut.halted : StepOut → Bool
  | .cont _ _ _ _ => false
  | .halt _ _ _ _ _ => true

/-- One iteration of the `while` body of `CPU::execute`: fetch the
opcode and dispatch.  The address lists record the reads performed by
`fetch_byte` / `fetch_word` / `read_byte` and the two stores of
`write_word`; the `pc.wrapping_sub(1)` of the JSR arm is
`(pc + 65535) % 65536`. -/
def CPU.step (cpu : CPU) (cycles : Nat) (mem : Mem) : StepOut :=
  let (ins, cpu1, cycles1) := cpu.fetch_byte cycles mem
  if ins = CPU.INS_LDA_IM then
    let (value, cpu2, cycles2) := cpu1.fetch_byte cycles1 mem
    .cont (CPU.lda_set_status { cpu2 with a := value }) mem cycles2 [cpu.pc, cpu1.pc]
  else if ins = CPU.INS_LDA_ZP then
    let (zp_addr, cpu2, cycles2) := cpu1.fetch_byte cycles1 mem
    let (value, cycles3) := CPU.read_byte cycles2 zp_addr mem
    .cont (CPU.lda_set_status { cpu2 with a := value }) mem cycles3 [cpu.pc, cpu1.pc, zp_addr]
  else if ins = CPU.INS_JSR then
    let (sub_addr, cpu2, cycles2) := cpu1.fetch_word cycles1 mem
    let (mem2, cycles3) := Mem.write_word mem ((cpu2.pc + 65535) % 65536) cpu2.sp cycles2
    .cont { cpu2 with pc := sub_addr, sp := (cpu2.sp + 2) % 65536 } mem2 (cycles3 - 1)
      [cpu.pc, cpu1.pc, (cpu1.pc + 1) % 65536, cpu2.sp, cpu2.sp + 1]
  else
    .halt cpu1 mem cycles1 ins [cpu.pc]

/-- Result of `CPU::execute`: the final CPU and memory, the value of the
local cycle counter when the loop stopped, the opcode bytes reported by
the unhandled-opcode `println!`, and every memory address accessed. -/
structure ExecResult where
  cpu : CPU
  mem : Mem
  cycles : Nat
  out : List Nat
  addrs : List Nat

/-- The `while cycles > 0` loop of `CPU::execute`, with an explicit
structural fuel.  Each iteration entered with a positive budget strictly
decreases the budget (the opcode fetch alone charges one cycle), so
running with `fuel = cycles` (`CPU.execute` below) never exhausts the
fuel before the loop condition or a `break` stops it. -/
def CPU.execGo : Nat → Nat → CPU → Mem → ExecResult
  | 0, cycles, cpu, mem => ⟨cpu, mem, cycles, [], []⟩
  | fuel + 1, cycles, cpu, mem =>
    if cycles = 0 then ⟨cpu, mem, cycles, [], []⟩
    else
      match cpu.step cycles mem with
      | .cont cpu1 mem1 cycles1 addrs =>
        let r := CPU.execGo fuel cycles1 cpu1 mem1
        ⟨r.cpu, r.mem, r.cycles, r.out, addrs ++ r.addrs⟩
      | .halt cpu1 mem1 cycles1 ins addrs => ⟨cpu1, mem1, cycles1, [ins], addrs⟩

/-- `CPU::execute`: run the fetch-dispatch loop on a cycle budget. -/
def CPU.execute (cycles : Nat) (cpu : CPU) (mem : Mem) : ExecResult :=
  CPU.execGo cycles cycles cpu mem

/-- The dispatch table of `CPU::execute`: the opcodes with a `match` arm. -/
def inTable (ins : Nat) : Bool :=
  ins = CPU.INS_LDA_IM ∨ ins = CPU.INS_LDA_ZP ∨ ins = CPU.INS_JSR

/-- CPU states reachable through the public interface: construction,
reset, the pc and accumulator setters, and `execute` against any
byte-valued memory. -/
inductive Reach : CPU → Prop where
  | new : Reach CPU.new
  | reset (cpu : CPU) (mem : Mem) : Reach cpu → Reach (CPU.reset cpu mem).1
  | set_pc (cpu : CPU) (value : Nat) : Reach cpu → Reach (cpu.set_pc value)
  | set_a (cpu : CPU) (value : Nat) : Reach cpu → Reach (cpu.set_a value)
  | execute (cpu : CPU) (mem : Mem) (cycles : Nat) :
      Reach cpu → Mem.wf mem → Reach (CPU.execute cycles cpu mem).cpu

/-- Invariant carried by every reachable CPU state: `pc` and `sp` fit in
16 bits, and `sp` is even (it starts at 0 or 0x0100 and only ever moves
by `wrapping_add(2)`). -/
def Inv (cpu : CPU) : Prop :=
  cpu.pc < 65536 ∧ cpu.sp < 65536 ∧ cpu.sp % 2 = 0

/- Concrete scenarios used by examples, witnesses and counterexamples. -/

/-- The CPU state right after `new` followed by `reset`. -/
def resetCPU : CPU := (CPU.reset CPU.new Mem.new).1

/-- The memory right after `reset` (all zero). -/
def resetMem : Mem := (CPU.reset CPU.new Mem.new).2

/-- The JSR test program: bytes `[0x20, 0x34, 0x12]` loaded at 0xFFFC
into the post-reset memory. -/
def jsrMem : Mem :=
  Mem.write (Mem.write (Mem.write resetMem 0xFFFC 0x20) 0xFFFD 0x34) 0xFFFE 0x12

/-- Bytes `[0xCD, 0xAB]` at addresses 0 and 1 (the `fetch_word` example). -/
def wordMem : Mem := Mem.write (Mem.write Mem.new 0 0xCD) 1 0xAB

/-- A word split across the address-space wrap: low byte 0x77 at 0xFFFF,
high byte 0x66 at 0x0000. -/
def wrapMem : Mem := Mem.write (Mem.write Mem.new 0xFFFF 0x77) 0 0x66

/-- A LDA-immediate program `[0xA9, 0x80]` at address 0. -/
def ldaImMem : Mem := Mem.write (Mem.write Mem.new 0 0xA9) 1 0x80

/-- A LDA-zero-page program `[0xA5, 0x10]` at address 0 with `0xAA`
stored at zero-page address 0x10. -/
def ldaZpMem : Mem :=
  Mem.write (Mem.write (Mem.write Mem.new 0 0xA5) 1 0x10) 0x10 0xAA

/-- A single unhandled opcode `INS_LDA_ZPX` at address 0. -/
def zpxMem : Mem := Mem.write Mem.new 0 0xB5

/-- The run that ends in an unhandled opcode: one cycle against
all-zero memory, so the opcode `0x00` is fetched and the loop breaks. -/
def runUnhandled : ExecResult := CPU.execute 1 CPU.new Mem.new

/-- The run that ends by budget exhaustion: a zero budget from the state
the unhandled run ends in. -/
def runExhausted : ExecResult := CPU.execute 0 (CPU.new.set_pc 1) Mem.new

/-! ### Helper lemmas -/

theorem mem_wf_new : Mem.wf Mem.new := by
  intro a; simp [Mem.new, Mem.wf]

theorem mem_wf_write {m : Mem} (hm : Mem.wf m) {a v : Nat} (hv : v < 256) :
    Mem.wf (Mem.write m a v) := by
  intro a'
  unfold Mem.write
  split
  · exact hv
  · exact hm a'

theorem mem_wf_resetMem : Mem.wf resetMem := by
  intro a; simp [resetMem, CPU.reset, Mem.initialize]

theorem mem_wf_jsrMem : Mem.wf jsrMem :=
  mem_wf_write (mem_wf_write (mem_wf_write mem_wf_resetMem (by norm_num)) (by norm_num))
    (by norm_num)

/-- A little-endian word assembled from two bytes fits in 16 bits. -/
theorem word_lt {hi lo : Nat} (hh : hi < 256) (hl : lo < 256) :
    (hi <<< 8) ||| lo < 65536 := by
  have h1 : hi <<< 8 < 2 ^ 16 := by
    rw [Nat.shiftLeft_eq]
    have h256 : (2 : Nat) ^ 8 = 256 := by norm_num
    have h65536 : (2 : Nat) ^ 16 = 65536 := by norm_num
    rw [h256, h65536]
    omega
  have h2 : lo < 2 ^ 16 := lt_of_lt_of_le hl (by norm_num)
  have h3 := Nat.or_lt_two_pow h1 h2
  have h65536 : (2 : Nat) ^ 16 = 65536 := by norm_num
  rw [h65536] at h3
  exact h3

set_option maxRecDepth 4096 in
/-- The negative-flag test of `lda_set_status` agrees with bit 7 for
byte values. -/
theorem and_128_testBit : ∀ v < 256, (0 < v &&& 128 ↔ v.testBit 7 = true) := by
  decide

/-- Unfolding of `step` on the LDA-immediate opcode. -/
theorem step_im {cpu : CPU} {mem : Mem} (cycles : Nat)
    (h : mem cpu.pc = CPU.INS_LDA_IM) :
    cpu.step cycles mem =
      .cont
        (CPU.lda_set_status
          { cpu with pc := ((cpu.pc + 1) % 65536 + 1) % 65536,
                     a := mem ((cpu.pc + 1) % 65536) })
        mem (cycles - 1 - 1) [cpu.pc, (cpu.pc + 1) % 65536] := by
  simp [CPU.step, CPU.fetch_byte, h]

/-- Unfolding of `step` on the LDA-zero-page opcode. -/
theorem step_zp {cpu : CPU} {mem : Mem} (cycles : Nat)
    (h : mem cpu.pc = CPU.INS_LDA_ZP) :
    cpu.step cycles mem =
      .cont
        (CPU.lda_set_status
          { cpu with pc := ((cpu.pc + 1) % 65536 + 1) % 65536,
                     a := mem (mem ((cpu.pc + 1) % 65536)) })
        mem (cycles - 1 - 1 - 1)
        [cpu.pc, (cpu.pc + 1) % 65536, mem ((cpu.pc + 1) % 65536)] := by
  simp [CPU.step, CPU.fetch_byte, CPU.read_byte, h, CPU.INS_LDA_ZP, CPU.INS_LDA_IM]

/-- Unfolding of `step` on the JSR opcode. -/
theorem step_jsr {cpu : CPU} {mem : Mem} (cycles : Nat)
    (h : mem cpu.pc = CPU.INS_JSR) :
    cpu.step cycles mem =
      .cont
        { cpu with
            pc := (mem (((cpu.pc + 1) % 65536 + 1) % 65536) <<< 8) ||| mem ((cpu.pc + 1) % 65536),
            sp := (cpu.sp + 2) % 65536 }
        (Mem.write
          (Mem.write mem cpu.sp
            (((((cpu.pc + 1) % 65536 + 1) % 65536 + 1) % 65536 + 65535) % 65536 &&& 0xFF))
          (cpu.sp + 1)
          (((((((cpu.pc + 1) % 65536 + 1) % 65536 + 1) % 65536 + 65535) % 65536) >>> 8) % 256))
        (cycles - 1 - 2 - 2 - 1)
        [cpu.pc, (cpu.pc + 1) % 65536, ((cpu.pc + 1) % 65536 + 1) % 65536,
         cpu.sp, cpu.sp + 1] := by
  simp [CPU.step, CPU.fetch_byte, CPU.fetch_word, Mem.write_word, h,
    CPU.INS_JSR, CPU.INS_LDA_IM, CPU.INS_LDA_ZP]

/-- Unfolding of `step` on an opcode with no dispatch arm. -/
theorem step_unhandled {cpu : CPU} {mem : Mem} (cycles : Nat)
    (h : inTable (mem cpu.pc) = false) :
    cpu.step cycles mem =
      .halt { cpu with pc := (cpu.pc + 1) % 65536 } mem (cycles - 1)
        (mem cpu.pc) [cpu.pc] := by
  simp only [inTable, decide_eq_false_iff_not, not_or] at h
  simp [CPU.step, CPU.fetch_byte, h.1, h.2.1, h.2.2]

/-- Every iteration of the loop body entered with a positive budget
strictly shrinks the budget. -/
theorem step_cycles_lt (cpu : CPU) (cycles : Nat) (mem : Mem) (h : 0 < cycles) :
    (cpu.step cycles mem).cycles < cycles := by
  by_cases h1 : mem cpu.pc = CPU.INS_LDA_IM
  · rw [step_im cycles h1]; dsimp only [StepOut.cycles]; omega
  · by_cases h2 : mem cpu.pc = CPU.INS_LDA_ZP
    · rw [step_zp cycles h2]; dsimp only [StepOut.cycles]; omega
    · by_cases h3 : mem cpu.pc = CPU.INS_JSR
      · rw [step_jsr cycles h3]; dsimp only [StepOut.cycles]; omega
      · have hf : inTable (mem cpu.pc) = false := by
          simp [inTable, h1, h2, h3]
        rw [step_unhandled cycles hf]; dsimp only [StepOut.cycles]; omega

/-- With a zero budget the loop returns at once. -/
theorem execGo_zero (fuel : Nat) (cpu : CPU) (mem : Mem) :
    CPU.execGo fuel 0 cpu mem = ⟨cpu, mem, 0, [], []⟩ := by
  cases fuel <;> rfl

/-- The fuel parameter is irrelevant as long as it covers the budget. -/
theorem execGo_fuel (fuel : Nat) :
    ∀ fuel' cycles cpu mem, cycles ≤ fuel → cycles ≤ fuel' →
      CPU.execGo fuel cycles cpu mem = CPU.execGo fuel' cycles cpu mem := by
  induction fuel with
  | zero =>
    intro fuel' cycles cpu mem h h'
    have : cycles = 0 := Nat.le_zero.mp h
    subst this
    rw [execGo_zero, execGo_zero]
  | succ k ih =>
    intro fuel' cycles cpu mem h h'
    by_cases hc : cycles = 0
    · subst hc; rw [execGo_zero, execGo_zero]
    · obtain ⟨j, rfl⟩ : ∃ j, fuel' = j + 1 := by
        cases fuel' with
        | zero => omega
        | succ j => exact ⟨j, rfl⟩
      have hlt := step_cycles_lt cpu cycles mem (Nat.pos_of_ne_zero hc)
      simp only [CPU.execGo, if_neg hc]
      cases hstep : cpu.step cycles mem with
      | cont cpu1 mem1 cycles1 addrs =>
        rw [hstep] at hlt
        simp only [StepOut.cycles] at hlt
        dsimp only
        rw [ih j cycles1 cpu1 mem1 (by omega) (by omega)]
      | halt cpu1 mem1 cycles1 ins addrs => rfl

/-- Unfolding of `execute` for a positive budget: one loop iteration,
then a recursive run on the shrunken budget. -/
theorem execute_pos (cpu : CPU) (cycles : Nat) (mem : Mem) (h : 0 < cycles) :
    CPU.execute cycles cpu mem =
      match cpu.step cycles mem with
      | .cont cpu1 mem1 cycles1 addrs =>
        ⟨(CPU.execute cycles1 cpu1 mem1).cpu, (CPU.execute cycles1 cpu1 mem1).mem,
         (CPU.execute cycles1 cpu1 mem1).cycles, (CPU.execute cycles1 cpu1 mem1).out,
         addrs ++ (CPU.execute cycles1 cpu1 mem1).addrs⟩
      | .halt cpu1 mem1 cycles1 ins addrs => ⟨cpu1, mem1, cycles1, [ins], addrs⟩ := by
  obtain ⟨k, rfl⟩ : ∃ k, cycles = k + 1 := by
    cases cycles with
    | zero => omega
    | succ k => exact ⟨k, rfl⟩
  have hlt := step_cycles_lt cpu (k + 1) mem h
  show CPU.execGo (k + 1) (k + 1) cpu mem = _
  simp only [CPU.execGo, if_neg (Nat.succ_ne_zero k)]
  cases hstep : cpu.step (k + 1) mem with
  | cont cpu1 mem1 cycles1 addrs =>
    rw [hstep] at hlt
    simp only [StepOut.cycles] at hlt
    have heq : CPU.execGo k cycles1 cpu1 mem1 = CPU.execute cycles1 cpu1 mem1 :=
      execGo_fuel k cycles1 cycles1 cpu1 mem1 (by omega) le_rfl
    dsimp only
    rw [heq]
  | halt cpu1 mem1 cycles1 ins addrs => rfl

/-- Full characterization of `execute` entered on an opcode outside the
dispatch table: one halting iteration. -/
theorem execute_unhandled {cpu : CPU} {mem : Mem} {cycles : Nat}
    (h0 : 0 < cycles) (h : inTable (mem cpu.pc) = false) :
    CPU.execute cycles cpu mem =
      ⟨{ cpu with pc := (cpu.pc + 1) % 65536 }, mem, cycles - 1,
       [mem cpu.pc], [cpu.pc]⟩ := by
  rw [execute_pos cpu cycles mem h0, step_unhandled cycles h]

/-- The loop always stops by budget exhaustion or at an unhandled
opcode (in which case the opcode was reported). -/
theorem execGo_term (fuel : Nat) :
    ∀ cycles cpu mem, cycles ≤ fuel →
      (CPU.execGo fuel cycles cpu mem).cycles = 0 ∨
        (CPU.execGo fuel cycles cpu mem).out ≠ [] := by
  induction fuel with
  | zero =>
    intro cycles cpu mem h
    have : cycles = 0 := Nat.le_zero.mp h
    subst this
    rw [execGo_zero]
    exact Or.inl rfl
  | succ k ih =>
    intro cycles cpu mem h
    by_cases hc : cycles = 0
    · subst hc; rw [execGo_zero]; exact Or.inl rfl
    · have hlt := step_cycles_lt cpu cycles mem (Nat.pos_of_ne_zero hc)
      simp only [CPU.execGo, if_neg hc]
      cases hstep : cpu.step cycles mem with
      | cont cpu1 mem1 cycles1 addrs =>
        rw [hstep] at hlt
        simp only [StepOut.cycles] at hlt
        simpa using ih cycles1 cpu1 mem1 (by omega)
      | halt cpu1 mem1 cycles1 ins addrs => simp

/-- One loop iteration preserves the state invariant and byte-valued
memory, and touches only in-range addresses. -/
theorem step_inv (cpu : CPU) (cycles : Nat) (mem : Mem)
    (hI : Inv cpu) (hw : Mem.wf mem) :
    Inv (cpu.step cycles mem).cpu ∧ Mem.wf (cpu.step cycles mem).mem ∧
      ∀ a ∈ (cpu.step cycles mem).addrs, a < 65536 := by
  obtain ⟨hpc, hsp, hsp2⟩ := hI
  have hmod : ∀ x : Nat, x % 65536 < 65536 := fun x => Nat.mod_lt x (by norm_num)
  by_cases h1 : mem cpu.pc = CPU.INS_LDA_IM
  · rw [step_im cycles h1]
    dsimp only [StepOut.cpu, StepOut.mem, StepOut.addrs, CPU.lda_set_status]
    refine ⟨⟨?_, ?_, ?_⟩, hw, ?_⟩
    · exact hmod _
    · exact hsp
    · exact hsp2
    · intro a ha
      simp only [List.mem_cons, List.not_mem_nil] at ha
      rcases ha with rfl | rfl | h
      · exact hpc
      · exact hmod _
      · cases h
  · by_cases h2 : mem cpu.pc = CPU.INS_LDA_ZP
    · rw [step_zp cycles h2]
      dsimp only [StepOut.cpu, StepOut.mem, StepOut.addrs, CPU.lda_set_status]
      refine ⟨⟨?_, ?_, ?_⟩, hw, ?_⟩
      · exact hmod _
      · exact hsp
      · exact hsp2
      · intro a ha
        simp only [List.mem_cons, List.not_mem_nil] at ha
        rcases ha with rfl | rfl | rfl | h
        · exact hpc
        · exact hmod _
        · exact lt_of_lt_of_le (hw _) (by norm_num)
        · cases h
    · by_cases h3 : mem cpu.pc = CPU.INS_JSR
      · rw [step_jsr cycles h3]
        dsimp only [StepOut.cpu, StepOut.mem, StepOut.addrs]
        have hsp1 : cpu.sp + 1 < 65536 := by omega
        refine ⟨⟨?_, ?_, ?_⟩, ?_, ?_⟩
        · exact word_lt (hw _) (hw _)
        · exact hmod _
        · show (cpu.sp + 2) % 65536 % 2 = 0
          have := Nat.mod_mod_of_dvd (cpu.sp + 2) (by norm_num : (2 : Nat) ∣ 65536)
          omega
        · refine mem_wf_write (mem_wf_write hw ?_) ?_
          · exact lt_of_le_of_lt Nat.and_le_right (by norm_num)
          · exact Nat.mod_lt _ (by norm_num)
        · intro a ha
          simp only [List.mem_cons, List.not_mem_nil] at ha
          rcases ha with rfl | rfl | rfl | rfl | rfl | h
          · exact hpc
          · exact hmod _
          · exact hmod _
          · exact hsp
          · exact hsp1
          · cases h
      · have hf : inTable (mem cpu.pc) = false := by
          simp [inTable, h1, h2, h3]
        rw [step_unhandled cycles hf]
        dsimp only [StepOut.cpu, StepOut.mem, StepOut.addrs]
        refine ⟨⟨hmod _, hsp, hsp2⟩, hw, ?_⟩
        intro a ha
        simp only [List.mem_cons, List.not_mem_nil] at ha
        rcases ha with rfl | h
        · exact hpc
        · cases h

/-- The loop preserves the invariant and byte-valued memory, and every
address it touches is in range. -/
theorem execGo_inv (fuel : Nat) :
    ∀ cycles cpu mem, cycles ≤ fuel → Inv cpu → Mem.wf mem →
      Inv (CPU.execGo fuel cycles cpu mem).cpu ∧
        Mem.wf (CPU.execGo fuel cycles cpu mem).mem ∧
        ∀ a ∈ (CPU.execGo fuel cycles cpu mem).addrs, a < 65536 := by
  induction fuel with
  | zero =>
    intro cycles cpu mem h hI hw
    have : cycles = 0 := Nat.le_zero.mp h
    subst this
    rw [execGo_zero]
    exact ⟨hI, hw, by simp⟩
  | succ k ih =>
    intro cycles cpu mem h hI hw
    by_cases hc : cycles = 0
    · subst hc; rw [execGo_zero]; exact ⟨hI, hw, by simp⟩
    · have hlt := step_cycles_lt cpu cycles mem (Nat.pos_of_ne_zero hc)
      have hstepinv := step_inv cpu cycles mem hI hw
      simp only [CPU.execGo, if_neg hc]
      cases hstep : cpu.step cycles mem with
      | cont cpu1 mem1 cycles1 addrs =>
        rw [hstep] at hlt hstepinv
        simp only [StepOut.cycles, StepOut.cpu, StepOut.mem, StepOut.addrs] at hlt hstepinv
        obtain ⟨hI1, hw1, haddr1⟩ := hstepinv
        obtain ⟨hI2, hw2, haddr2⟩ := ih cycles1 cpu1 mem1 (by omega) hI1 hw1
        refine ⟨hI2, hw2, ?_⟩
        intro a ha
        simp only [List.mem_append] at ha
        rcases ha with ha | ha
        · exact haddr1 a ha
        · exact haddr2 a ha
      | halt cpu1 mem1 cycles1 ins addrs =>
        rw [hstep] at hstepinv
        simp only [StepOut.cpu, StepOut.mem, StepOut.addrs] at hstepinv
        exact hstepinv

/-- With a zero budget `execute` is the identity on all state. -/
theorem execute_zero_eq (cpu : CPU) (mem : Mem) :
    CPU.execute 0 cpu mem = ⟨cpu, mem, 0, [], []⟩ := rfl

/-- Reading back the low byte of a two-byte store. -/
theorem write2_low (m : Mem) (s lo hi : Nat) :
    (Mem.write (Mem.write m s lo) (s + 1) hi) s = lo := by
  unfold Mem.write
  rw [if_neg (by omega), if_pos rfl]

/-- Reading back the high byte of a two-byte store. -/
theorem write2_high (m : Mem) (s lo hi : Nat) :
    (Mem.write (Mem.write m s lo) (s + 1) hi) (s + 1) = hi := by
  unfold Mem.write
  rw [if_pos rfl]

/-- A two-byte store leaves every other address untouched. -/
theorem write2_other (m : Mem) (s lo hi a : Nat) (h1 : a ≠ s) (h2 : a ≠ s + 1) :
    (Mem.write (Mem.write m s lo) (s + 1) hi) a = m a := by
  unfold Mem.write
  rw [if_neg h2, if_neg h1]

/-- The zero and negative flags computed by `lda_set_status`, stated
against the loaded byte. -/
theorem lda_status_z_n (w : CPU) (v : Nat) (hv : v < 256) (ha : w.a = v) :
    ((CPU.lda_set_status w).z = 1 ↔ v = 0) ∧
      ((CPU.lda_set_status w).n = 1 ↔ v.testBit 7 = true) := by
  constructor
  · dsimp only [CPU.lda_set_status]
    rw [ha]
    by_cases h : v = 0 <;> simp [h]
  · dsimp only [CPU.lda_set_status]
    rw [ha]
    have hb := and_128_testBit v hv
    by_cases h : 0 < v &&& 128
    · simp only [gt_iff_lt, h, if_true]
      simp [hb.mp h]
    · simp only [gt_iff_lt, h, if_false]
      have ht : v.testBit 7 ≠ true := fun ht => h (hb.mpr ht)
      simp [ht]

/-- Every CPU state reachable through the public interface satisfies
the invariant (in particular the stack pointer stays even). -/
theorem reach_inv : ∀ cpu, Reach cpu → Inv cpu := by
  intro cpu h
  induction h with
  | new => exact ⟨by decide, by decide, by decide⟩
  | reset cpu mem hr ih =>
    refine ⟨?_, ?_, ?_⟩ <;> simp [CPU.reset]
  | set_pc cpu value hr ih =>
    exact ⟨Nat.mod_lt _ (by norm_num), ih.2.1, ih.2.2⟩
  | set_a cpu value hr ih => exact ⟨ih.1, ih.2.1, ih.2.2⟩
  | execute cpu mem cycles hr hw ih =>
    exact (execGo_inv cycles cycles cpu mem le_rfl ih hw).1

/-! ### Claim theorems -/

/-- C1 (counterexample): the claim promises `pc == 0x1234` after
`execute` with *at least* 6 cycles from the reset state with
`[0x20, 0x34, 0x12]` at 0xFFFC, but with 7 cycles the loop continues
after the jump, fetches the unhandled opcode 0x00 at 0x1234 and leaves
`pc` at 0x1235. -/
theorem jsr_at_least_six_cycles_fails :
    6 ≤ 7 ∧ (CPU.execute 7 resetCPU jsrMem).cpu.pc = 0x1235 ∧
      (CPU.execute 7 resetCPU jsrMem).cpu.pc ≠ 0x1234 :=
  ⟨by decide, by decide, by decide⟩

/-- C1 (amended): executing opcode 0x20 fetches a 16-bit little-endian
target (low byte first), writes the post-fetch `pc` minus 1 as a
little-endian word at the raw stack-pointer address (low byte at `sp`,
high byte at `sp + 1`, nothing else touched), sets `pc` to the target,
advances `sp` by exactly 2, and costs 6 cycles; concretely, from the
reset state with bytes `[0x20, 0x34, 0x12]` at 0xFFFC, `execute` with
*exactly* 6 cycles yields `pc = 0x1234`, `sp` advanced by 2,
`memory[0x0100] = 0xFE` and `memory[0x0101] = 0xFF`. -/
theorem jsr_semantics :
    (∀ (cpu : CPU) (mem : Mem) (cycles : Nat), mem cpu.pc = CPU.INS_JSR →
      (cpu.step cycles mem).halted = false ∧
      (cpu.step cycles mem).cpu.pc =
        (mem (((cpu.pc + 1) % 65536 + 1) % 65536) <<< 8) ||| mem ((cpu.pc + 1) % 65536) ∧
      (cpu.step cycles mem).cpu.sp = (cpu.sp + 2) % 65536 ∧
      (cpu.step cycles mem).mem cpu.sp =
        (((((((cpu.pc + 1) % 65536 + 1) % 65536 + 1) % 65536 + 65535) % 65536)) &&& 0xFF) ∧
      (cpu.step cycles mem).mem (cpu.sp + 1) =
        ((((((((cpu.pc + 1) % 65536 + 1) % 65536 + 1) % 65536 + 65535) % 65536)) >>> 8) % 256) ∧
      (∀ a, a ≠ cpu.sp → a ≠ cpu.sp + 1 → (cpu.step cycles mem).mem a = mem a) ∧
      (cpu.step cycles mem).cycles = cycles - 6) ∧
    ((CPU.execute 6 resetCPU jsrMem).cpu.pc = 0x1234 ∧
     (CPU.execute 6 resetCPU jsrMem).cpu.sp = resetCPU.sp + 2 ∧
     (CPU.execute 6 resetCPU jsrMem).mem 0x0100 = 0xFE ∧
     (CPU.execute 6 resetCPU jsrMem).mem 0x0101 = 0xFF ∧
     (CPU.execute 6 resetCPU jsrMem).cycles = 0) := by
  constructor
  · intro cpu mem cycles h
    rw [step_jsr cycles h]
    dsimp only [StepOut.halted, StepOut.cpu, StepOut.mem, StepOut.cycles]
    refine ⟨rfl, rfl, rfl, ?_, ?_, ?_, ?_⟩
    · exact write2_low mem cpu.sp _ _
    · exact write2_high mem cpu.sp _ _
    · intro a ha1 ha2
      exact write2_other mem cpu.sp _ _ a ha1 ha2
    · omega
  · exact ⟨by decide, by decide, by decide, by decide, by decide⟩

/-- C1 (witness of the amended theorem): the generic JSR step property
applied to the concrete reset-state program. -/
theorem jsr_semantics_witness :
    jsrMem resetCPU.pc = CPU.INS_JSR ∧
      (resetCPU.step 6 jsrMem).cpu.sp = (resetCPU.sp + 2) % 65536 :=
  ⟨by decide, (jsr_semantics.1 resetCPU jsrMem 6 (by decide)).2.2.1⟩

/-- C2: a load-accumulator instruction (immediate 0xA9 or zero-page
0xA5) that loads the byte `v` sets the zero flag iff `v = 0`, sets the
negative flag iff bit 7 of `v` is set, and leaves the flags c, i, d, b
and v untouched. -/
theorem lda_flag_semantics :
    ∀ (cpu : CPU) (mem : Mem) (cycles v : Nat), v < 256 →
      ((mem cpu.pc = CPU.INS_LDA_IM → mem ((cpu.pc + 1) % 65536) = v →
        (cpu.step cycles mem).cpu.a = v ∧
        ((cpu.step cycles mem).cpu.z = 1 ↔ v = 0) ∧
        ((cpu.step cycles mem).cpu.n = 1 ↔ v.testBit 7 = true) ∧
        (cpu.step cycles mem).cpu.c = cpu.c ∧
        (cpu.step cycles mem).cpu.i = cpu.i ∧
        (cpu.step cycles mem).cpu.d = cpu.d ∧
        (cpu.step cycles mem).cpu.b = cpu.b ∧
        (cpu.step cycles mem).cpu.v = cpu.v) ∧
       (mem cpu.pc = CPU.INS_LDA_ZP → mem (mem ((cpu.pc + 1) % 65536)) = v →
        (cpu.step cycles mem).cpu.a = v ∧
        ((cpu.step cycles mem).cpu.z = 1 ↔ v = 0) ∧
        ((cpu.step cycles mem).cpu.n = 1 ↔ v.testBit 7 = true) ∧
        (cpu.step cycles mem).cpu.c = cpu.c ∧
        (cpu.step cycles mem).cpu.i = cpu.i ∧
        (cpu.step cycles mem).cpu.d = cpu.d ∧
        (cpu.step cycles mem).cpu.b = cpu.b ∧
        (cpu.step cycles mem).cpu.v = cpu.v)) := by
  intro cpu mem cycles v hv
  constructor
  · intro h1 hval
    rw [step_im cycles h1]
    dsimp only [StepOut.cpu]
    refine ⟨?_, ?_, ?_, rfl, rfl, rfl, rfl, rfl⟩
    · dsimp only [CPU.lda_set_status]
      exact hval
    · refine (lda_status_z_n _ v hv ?_).1
      exact hval
    · refine (lda_status_z_n _ v hv ?_).2
      exact hval
  · intro h2 hval
    rw [step_zp cycles h2]
    dsimp only [StepOut.cpu]
    refine ⟨?_, ?_, ?_, rfl, rfl, rfl, rfl, rfl⟩
    · dsimp only [CPU.lda_set_status]
      exact hval
    · refine (lda_status_z_n _ v hv ?_).1
      exact hval
    · refine (lda_status_z_n _ v hv ?_).2
      exact hval

/-- C2 (witness): LDA immediate of 0x80 from the concrete program sets
the negative flag and clears the zero flag. -/
theorem lda_flag_semantics_witness :
    (0x80 : Nat) < 256 ∧ (CPU.new.step 10 ldaImMem).cpu.a = 0x80 :=
  ⟨by decide,
   ((lda_flag_semantics CPU.new ldaImMem 10 0x80 (by decide)).1 (by decide) (by decide)).1⟩

/-- C3: when `execute` fetches an opcode with no dispatch arm, it stops
at once: `pc` is one past the opcode byte (mod 65536), the rest of the
CPU state and the memory are exactly as before the fetch, only the one
cycle of the opcode fetch is consumed, and the opcode is reported. -/
theorem unknown_opcode_stops (cpu : CPU) (mem : Mem) (cycles : Nat)
    (h0 : 0 < cycles) (h : inTable (mem cpu.pc) = false) :
    CPU.execute cycles cpu mem =
      ⟨{ cpu with pc := (cpu.pc + 1) % 65536 }, mem, cycles - 1,
       [mem cpu.pc], [cpu.pc]⟩ :=
  execute_unhandled h0 h

/-- C3 (witness): all-zero memory makes the first fetch an unhandled
opcode 0x00. -/
theorem unknown_opcode_stops_witness :
    0 < 5 ∧ inTable (Mem.new CPU.new.pc) = false ∧
      CPU.execute 5 CPU.new Mem.new =
        ⟨{ CPU.new with pc := (CPU.new.pc + 1) % 65536 }, Mem.new, 5 - 1,
         [Mem.new CPU.new.pc], [CPU.new.pc]⟩ :=
  ⟨by decide, by decide, unknown_opcode_stops CPU.new Mem.new 5 (by decide) (by decide)⟩

/-- C4 (counterexample): the claim says the unhandled-opcode stop is
distinguishable from budget exhaustion through the component's
interface; but `execute` returns nothing in the source, so the
interface-visible outcome is the final CPU and memory state — and the
run that stops on the unhandled opcode 0x00 (budget 1, pc 0) ends in
exactly the same CPU, memory and local cycle count as the run that
stops by budget exhaustion (budget 0, pc 1).  Only the stdout output
(modelled by `out`) differs, and it is not part of the interface. -/
theorem stop_reason_not_in_interface :
    runUnhandled.cpu = runExhausted.cpu ∧
    runUnhandled.mem = runExhausted.mem ∧
    runUnhandled.cycles = runExhausted.cycles ∧
    runUnhandled.out = [0x00] ∧ runExhausted.out = [] :=
  ⟨by decide, rfl, by decide, by decide, rfl⟩

/-- C4 (amended): the unhandled-opcode stop is reported — the
`println!`, modelled as the `out` channel, names the offending opcode,
while a run stopped purely by exhaustion (budget 0) reports nothing —
but it is observable on standard output only, not through `execute`'s
return value or final CPU/memory state. -/
theorem unhandled_reported_via_output :
    (∀ (cpu : CPU) (mem : Mem), (CPU.execute 0 cpu mem).out = []) ∧
    (∀ (cpu : CPU) (mem : Mem) (cycles : Nat), 0 < cycles →
      inTable (mem cpu.pc) = false →
      (CPU.execute cycles cpu mem).out = [mem cpu.pc]) := by
  constructor
  · intro cpu mem; rfl
  · intro cpu mem cycles h0 h
    rw [execute_unhandled h0 h]

/-- C4 (witness of the amended theorem). -/
theorem unhandled_reported_via_output_witness :
    0 < 1 ∧ inTable (Mem.new CPU.new.pc) = false ∧
      (CPU.execute 1 CPU.new Mem.new).out = [Mem.new CPU.new.pc] :=
  ⟨by decide, by decide,
   unhandled_reported_via_output.2 CPU.new Mem.new 1 (by decide) (by decide)⟩

/-- C5: every cycle-charging primitive consumes `min cost available`
cycles — the saturating subtraction never drives the budget below zero
and a short budget is clamped at zero — and an instruction entered with
an insufficient budget still performs all of its side effects: with a
budget of 1, a JSR (cost 6) still writes both stack bytes, moves `sp`
by 2 and jumps, ending with the budget clamped to 0. -/
theorem saturating_cycle_accounting :
    (∀ (cpu : CPU) (cycles : Nat) (mem : Mem),
      (cpu.fetch_byte cycles mem).2.2 + min cycles 1 = cycles) ∧
    (∀ (cpu : CPU) (cycles : Nat) (mem : Mem),
      (cpu.fetch_word cycles mem).2.2 + min cycles 2 = cycles) ∧
    (∀ (cycles address : Nat) (mem : Mem),
      (CPU.read_byte cycles address mem).2 + min cycles 1 = cycles) ∧
    (∀ (m : Mem) (value address cycles : Nat),
      (Mem.write_word m value address cycles).2 + min cycles 2 = cycles) ∧
    (∀ (cpu : CPU) (cycles : Nat) (mem : Mem), mem cpu.pc = CPU.INS_JSR →
      (cpu.step cycles mem).cycles + min cycles 6 = cycles) ∧
    (∀ (cpu : CPU) (mem : Mem), mem cpu.pc = CPU.INS_JSR →
      (CPU.execute 1 cpu mem).cpu.pc =
        (mem (((cpu.pc + 1) % 65536 + 1) % 65536) <<< 8) ||| mem ((cpu.pc + 1) % 65536) ∧
      (CPU.execute 1 cpu mem).cpu.sp = (cpu.sp + 2) % 65536 ∧
      (CPU.execute 1 cpu mem).mem cpu.sp =
        (((((((cpu.pc + 1) % 65536 + 1) % 65536 + 1) % 65536 + 65535) % 65536)) &&& 0xFF) ∧
      (CPU.execute 1 cpu mem).mem (cpu.sp + 1) =
        ((((((((cpu.pc + 1) % 65536 + 1) % 65536 + 1) % 65536 + 65535) % 65536)) >>> 8) % 256) ∧
      (CPU.execute 1 cpu mem).cycles = 0) := by
  refine ⟨?_, ?_, ?_, ?_, ?_, ?_⟩
  · intro cpu cycles mem
    dsimp only [CPU.fetch_byte]
    omega
  · intro cpu cycles mem
    dsimp only [CPU.fetch_word]
    omega
  · intro cycles address mem
    dsimp only [CPU.read_byte]
    omega
  · intro m value address cycles
    dsimp only [Mem.write_word]
    omega
  · intro cpu cycles mem h
    rw [step_jsr cycles h]
    dsimp only [StepOut.cycles]
    omega
  · intro cpu mem h
    rw [execute_pos cpu 1 mem (by norm_num), step_jsr 1 h]
    dsimp only
    norm_num
    rw [execute_zero_eq]
    refine ⟨rfl, rfl, ?_, ?_, rfl⟩
    · exact write2_low mem cpu.sp _ _
    · exact write2_high mem cpu.sp _ _

/-- C5 (witness): the saturating JSR accounting applied to the concrete
reset-state program with a one-cycle budget. -/
theorem saturating_cycle_accounting_witness :
    jsrMem resetCPU.pc = CPU.INS_JSR ∧ (CPU.execute 1 resetCPU jsrMem).cycles = 0 :=
  ⟨by decide, (saturating_cycle_accounting.2.2.2.2.2 resetCPU jsrMem (by decide)).2.2.2.2⟩

/-- C6: from any CPU state reachable through the public interface and
any byte-valued memory, every memory address the `execute` loop
accesses — instruction fetches, zero-page reads, and both bytes of the
JSR stack write including the high byte at `sp + 1` — is below 65536,
so no out-of-bounds access occurs. -/
theorem reachable_accesses_in_range :
    ∀ (cpu : CPU), Reach cpu → ∀ (cycles : Nat) (mem : Mem), Mem.wf mem →
      ∀ a ∈ (CPU.execute cycles cpu mem).addrs, a < 65536 := by
  intro cpu hr cycles mem hw
  exact (execGo_inv cycles cycles cpu mem le_rfl (reach_inv cpu hr) hw).2.2

/-- C6 (witness): the reset state is reachable, the JSR program memory
is byte-valued, and the stack address 256 accessed by the JSR run is in
range. -/
theorem reachable_accesses_in_range_witness :
    (CPU.execute 6 resetCPU jsrMem).addrs = [65532, 65533, 65534, 256, 257] ∧
      (256 : Nat) < 65536 :=
  ⟨by decide,
   reachable_accesses_in_range resetCPU (Reach.reset CPU.new Mem.new Reach.new)
     6 jsrMem mem_wf_jsrMem 256 (by decide)⟩

/-- C7: calling `execute` with a zero cycle budget performs no fetch
and leaves the CPU, the memory, the output and the access trace
untouched. -/
theorem execute_zero_budget (cpu : CPU) (mem : Mem) :
    CPU.execute 0 cpu mem = ⟨cpu, mem, 0, [], []⟩ :=
  execute_zero_eq cpu mem

/-- C8: `fetch_word` reads the low byte at `pc` first and the high byte
at the next (wrapping) address, returns `(high <<< 8) ||| low`,
advances `pc` by exactly 2 modulo 65536 and charges 2 cycles; bytes
`[0xCD, 0xAB]` at pc 0 give 0xABCD with pc 2 and 10 − 2 = 8 cycles
left, and at pc 0xFFFF the high byte is read from address 0. -/
theorem fetch_word_little_endian :
    (∀ (cpu : CPU) (cycles : Nat) (mem : Mem),
      (cpu.fetch_word cycles mem).1 =
        (mem ((cpu.pc + 1) % 65536) <<< 8) ||| mem cpu.pc ∧
      (cpu.fetch_word cycles mem).2.1 = { cpu with pc := (cpu.pc + 2) % 65536 } ∧
      (cpu.fetch_word cycles mem).2.2 = cycles - 2) ∧
    ((CPU.new.fetch_word 10 wordMem).1 = 0xABCD ∧
     (CPU.new.fetch_word 10 wordMem).2.1.pc = 2 ∧
     (CPU.new.fetch_word 10 wordMem).2.2 = 8) ∧
    (((CPU.new.set_pc 0xFFFF).fetch_word 10 wrapMem).1 = 0x6677 ∧
     ((CPU.new.set_pc 0xFFFF).fetch_word 10 wrapMem).2.1.pc = 1) := by
  refine ⟨?_, ⟨by decide, by decide, by decide⟩, ⟨by decide, by decide⟩⟩
  intro cpu cycles mem
  refine ⟨rfl, ?_, rfl⟩
  dsimp only [CPU.fetch_word]
  simp only [CPU.mk.injEq, and_true, true_and]
  omega

/-- C9: the loop terminates — each iteration entered with a positive
budget strictly decreases the budget, so every run ends either with the
budget exhausted or at an unrecognized opcode (which is reported). -/
theorem execute_terminates :
    (∀ (cpu : CPU) (cycles : Nat) (mem : Mem), 0 < cycles →
      (cpu.step cycles mem).cycles < cycles) ∧
    (∀ (cycles : Nat) (cpu : CPU) (mem : Mem),
      (CPU.execute cycles cpu mem).cycles = 0 ∨
        (CPU.execute cycles cpu mem).out ≠ []) := by
  constructor
  · exact fun cpu cycles mem h => step_cycles_lt cpu cycles mem h
  · intro cycles cpu mem
    exact execGo_term cycles cycles cpu mem le_rfl

/-- C9 (witness). -/
theorem execute_terminates_witness :
    0 < 6 ∧ (resetCPU.step 6 jsrMem).cycles < 6 :=
  ⟨by decide, execute_terminates.1 resetCPU 6 jsrMem (by decide)⟩

/-- C10: opcode 0xB5 (`INS_LDA_ZPX`) has no dispatch arm, so executing
it stops as an unhandled instruction with the accumulator, the x and y
registers and every flag unchanged, memory untouched, `pc` one past the
opcode, one cycle consumed and the opcode reported. -/
theorem lda_zpx_unhandled :
    inTable CPU.INS_LDA_ZPX = false ∧
    ∀ (cpu : CPU) (mem : Mem) (cycles : Nat), 0 < cycles →
      mem cpu.pc = CPU.INS_LDA_ZPX →
      (CPU.execute cycles cpu mem).cpu = { cpu with pc := (cpu.pc + 1) % 65536 } ∧
      (CPU.execute cycles cpu mem).mem = mem ∧
      (CPU.execute cycles cpu mem).out = [CPU.INS_LDA_ZPX] ∧
      (CPU.execute cycles cpu mem).cycles = cycles - 1 ∧
      (CPU.execute cycles cpu mem).cpu.a = cpu.a ∧
      (CPU.execute cycles cpu mem).cpu.x = cpu.x ∧
      (CPU.execute cycles cpu mem).cpu.y = cpu.y ∧
      (CPU.execute cycles cpu mem).cpu.c = cpu.c ∧
      (CPU.execute cycles cpu mem).cpu.z = cpu.z ∧
      (CPU.execute cycles cpu mem).cpu.i = cpu.i ∧
      (CPU.execute cycles cpu mem).cpu.d = cpu.d ∧
      (CPU.execute cycles cpu mem).cpu.b = cpu.b ∧
      (CPU.execute cycles cpu mem).cpu.v = cpu.v ∧
      (CPU.execute cycles cpu mem).cpu.n = cpu.n := by
  constructor
  · decide
  · intro cpu mem cycles h0 h
    have hf : inTable (mem cpu.pc) = false := by rw [h]; decide
    rw [execute_unhandled h0 hf, h]
    exact ⟨rfl, rfl, rfl, rfl, rfl, rfl, rfl, rfl, rfl, rfl, rfl, rfl, rfl, rfl⟩

/-- C10 (witness): the opcode byte 0xB5 at address 0. -/
theorem lda_zpx_unhandled_witness :
    0 < 3 ∧ zpxMem CPU.new.pc = CPU.INS_LDA_ZPX ∧
      (CPU.execute 3 CPU.new zpxMem).cpu = { CPU.new with pc := (CPU.new.pc + 1) % 65536 } :=
  ⟨by decide, by decide,
   (lda_zpx_unhandled.2 CPU.new zpxMem 3 (by decide) (by decide)).1⟩

end M6502
